import Mathlib

/-!
Verification of the `naritai` DAG container (`naritai/dag.py`).

The Python class `DAG` keeps `_graph : dict[V, set[V]]`, a mapping from a
vertex to the set of its direct successors.  We embed it shallowly:

* the insertion-ordered Python `dict` becomes an insertion-ordered
  association list `List (V × List V)`;
* each Python `set` of successors becomes an insertion-ordered
  duplicate-free `List V` (`set.add` appends when absent), which
  determinizes the set-iteration order the CPython runtime leaves
  unspecified;
* methods that can raise become functions returning an error-carrying
  result type; the recursive `__delitem__` and the (possibly
  non-terminating) `subgraph` loop additionally take a fuel parameter,
  `outOfFuel` / `none` marking executions that have not finished within
  the given fuel;
* `static_order` delegates to Python's `graphlib.TopologicalSorter(self)`.
  That stdlib class reads the supplied mapping as *node → predecessors*
  and performs Kahn's algorithm, raising `CycleError` from `prepare()`
  before anything is yielded.  `kahnLoop` below models that documented
  contract: the node universe is every key together with every vertex
  mentioned in a value (in registration order), a node is ready once all
  entries of its adjacency value have been emitted, and a stuck
  non-empty remainder reports a cycle.
-/

set_option linter.unusedSectionVars false
set_option linter.unusedVariables false

namespace Naritai

variable {V : Type} [DecidableEq V]

/-- The adjacency store `DAG._graph`: insertion-ordered association list
from a vertex to its successor list. -/
abbrev Graph (V : Type) : Type := List (V × List V)

/-- Dictionary lookup `self._graph[key]` (as an `Option`). -/
def findEntry (g : Graph V) (key : V) : Option (List V) :=
  match g with
  | [] => none
  | p :: rest => if p.1 = key then some p.2 else findEntry rest key

/-- `__contains__`: `vertex in self._graph`. -/
def contains (g : Graph V) (vertex : V) : Bool :=
  (findEntry g vertex).isSome

/-- The successor list of a vertex (empty for an absent vertex). -/
def succList (g : Graph V) (vertex : V) : List V :=
  (findEntry g vertex).getD []

/-- The vertex set (the dictionary keys, in insertion order). -/
def keys (g : Graph V) : List V := g.map Prod.fst

/-- `__len__`: number of vertices. -/
def len (g : Graph V) : Nat := g.length

/-- The edge relation of the stored graph: `edge g u v` holds when `v` is
a direct successor of `u`. -/
def edge (g : Graph V) (u v : V) : Prop := v ∈ succList g u

instance (g : Graph V) (u v : V) : Decidable (edge g u v) :=
  inferInstanceAs (Decidable (v ∈ succList g u))

/-- Python `set.add` on the insertion-ordered successor list: append when
absent. -/
def setAdd (s : List V) (v : V) : List V :=
  if v ∈ s then s else s ++ [v]

/-- `add_vertex`: insert `vertex` with an empty successor set when absent
(`self._graph[vertex] = set()`), no-op when present. -/
def add_vertex (g : Graph V) (vertex : V) : Graph V :=
  if contains g vertex then g else g ++ [(vertex, [])]

/-- The final statement of `add_edge`: `self._graph[u].add(v)`. -/
def addSucc (g : Graph V) (u v : V) : Graph V :=
  g.map fun p => if p.1 = u then (p.1, setAdd p.2 v) else p

/-- `add_edge`: auto-create the missing endpoints, then add `v` to `u`'s
successor set. -/
def add_edge (g : Graph V) (u v : V) : Graph V :=
  let g1 := if contains g u then g else add_vertex g u
  let g2 := if contains g1 v then g1 else add_vertex g1 v
  addSucc g2 u v

/-- One element of the `initial_vertexes` list of `DAG.__init__`: a
1-tuple `(v,)` or a 2-tuple `(u, v)`. -/
inductive EdgeSpec (V : Type) where
  | single (v : V)
  | pair (u v : V)
deriving DecidableEq

/-- One iteration of the `DAG.__init__` loop. -/
def applySpec (g : Graph V) (e : EdgeSpec V) : Graph V :=
  match e with
  | .single v => add_vertex g v
  | .pair u v => add_edge g u v

/-- `DAG.__init__`: fold the edge specifications over the empty graph. -/
def buildDAG (l : List (EdgeSpec V)) : Graph V :=
  l.foldl applySpec []

/-- Whether a vertex is written in an edge specification. -/
def EdgeSpec.mentions : EdgeSpec V → V → Prop
  | .single w, v => v = w
  | .pair a b, v => v = a ∨ v = b

instance : ∀ (e : EdgeSpec V) (v : V), Decidable (e.mentions v)
  | .single w, v => inferInstanceAs (Decidable (v = w))
  | .pair a b, v => inferInstanceAs (Decidable (v = a ∨ v = b))

/-- Whether a vertex is written somewhere in an edge-specification list
(such vertices are exactly the keys of the graph it builds). -/
def mentionedIn (l : List (EdgeSpec V)) (v : V) : Prop :=
  ∃ e ∈ l, e.mentions v

/-- Result of `__delitem__`: the new graph, a `KeyError`, or fuel
exhaustion (the Python recursion ran deeper than the supplied fuel). -/
inductive DelRes (V : Type) where
  | ok (g : Graph V)
  | notFound (key : V)
  | outOfFuel
deriving DecidableEq

/-- Error propagation through the cascade: once a `KeyError` is raised it
aborts the whole call. -/
def DelRes.bind (r : DelRes V) (f : Graph V → DelRes V) : DelRes V :=
  match r with
  | .ok g => f g
  | r => r

/-- The first loop of `__delitem__`: remove `key` from every vertex's
successor set. -/
def removeFromAll (g : Graph V) (key : V) : Graph V :=
  g.map fun p => (p.1, p.2.filter fun x => decide (x ≠ key))

/-- `del self._graph[key]` once the key is known present. -/
def eraseKey (g : Graph V) (key : V) : Graph V :=
  g.filter fun p => decide (p.1 ≠ key)

/-- `__delitem__`: snapshot `to_delete = self[key].copy()` (raising
`KeyError` when absent), drop every incoming edge of `key`, recursively
delete each snapshot member, finally `del self._graph[key]` (again a
`KeyError` when the cascade already removed it). -/
def delItem : Nat → Graph V → V → DelRes V
  | 0, _, _ => .outOfFuel
  | fuel+1, g, key =>
    match findEntry g key with
    | none => .notFound key
    | some toDelete =>
      DelRes.bind
        (toDelete.foldl (fun r n => DelRes.bind r fun h => delItem fuel h n)
          (.ok (removeFromAll g key)))
        (fun g2 => if contains g2 key then .ok (eraseKey g2 key) else .notFound key)

/-- The `for node in to_delete: del self[node]` loop, abstracted over the
starting graph. -/
def delList (fuel : Nat) (g : Graph V) (ks : List V) : DelRes V :=
  ks.foldl (fun r n => DelRes.bind r fun h => delItem fuel h n) (.ok g)

/-- The `while len(vertices_to_visit) > 0` loop of `subgraph`: pop the
head, enqueue all its children unguarded, record the traversed edges.
`none` = the loop has not finished within `fuel` iterations. -/
def subgraphLoop (g : Graph V) : Nat → List V → List (EdgeSpec V) →
    Option (Except V (List (EdgeSpec V)))
  | 0, _, _ => none
  | fuel+1, worklist, edges =>
    match worklist with
    | [] => some (.ok edges)
    | next :: rest =>
      match findEntry g next with
      | none => some (.error next)
      | some children =>
        subgraphLoop g fuel (rest ++ children)
          (edges ++ children.map (EdgeSpec.pair next))

/-- `subgraph`: a one-vertex graph when the root is absent, otherwise the
unguarded breadth-first collection rebuilt through `DAG(edges)`. -/
def subgraph (fuel : Nat) (g : Graph V) (node : V) : Option (Except V (Graph V)) :=
  if contains g node then
    (subgraphLoop g fuel [node] [EdgeSpec.single node]).map fun r => r.map buildDAG
  else some (.ok (buildDAG [EdgeSpec.single node]))

instance {ε α : Type} [DecidableEq ε] [DecidableEq α] : DecidableEq (Except ε α) := fun x y =>
  match x, y with
  | .ok a, .ok b =>
    if h : a = b then isTrue (by rw [h])
    else isFalse (by intro hc; injection hc; exact h (by assumption))
  | .error a, .error b =>
    if h : a = b then isTrue (by rw [h])
    else isFalse (by intro hc; injection hc; exact h (by assumption))
  | .ok _, .error _ => isFalse (by intro hc; cases hc)
  | .error _, .ok _ => isFalse (by intro hc; cases hc)

/-- The error taxonomy of the spec: `NotFound` (Python `KeyError`) and
`CycleDetected` (Python `graphlib.CycleError`). -/
inductive DagError (V : Type) where
  | notFound (v : V)
  | cycleDetected
deriving DecidableEq

/-- The node universe `graphlib.TopologicalSorter` registers from
`graph.items()`: for each item, the key and then every vertex of its
value, first occurrences only. -/
def nodes (g : Graph V) : List V :=
  g.foldl (fun acc p => p.2.foldl setAdd (setAdd acc p.1)) []

/-- Readiness in graphlib's Kahn algorithm: the mapping value of `v`
(read as its predecessor list) has been fully emitted. -/
def kahnReady (g : Graph V) (em : List V) (v : V) : Bool :=
  (succList g v).all fun w => decide (w ∈ em)

/-- Kahn's algorithm as run by `graphlib.TopologicalSorter.static_order`:
emit every ready batch, and report a cycle when no node of a non-empty
remainder is ready. -/
def kahnLoop (g : Graph V) : Nat → List V → List V → Except (DagError V) (List V)
  | 0, rem, em => if rem.isEmpty then .ok em else .error .cycleDetected
  | fuel+1, rem, em =>
    if rem.isEmpty then .ok em
    else
      let rdy := rem.filter (kahnReady g em)
      if rdy.isEmpty then .error .cycleDetected
      else kahnLoop g fuel (rem.filter fun v => ! kahnReady g em v) (em ++ rdy)

/-- `static_order`: run graphlib's sorter over the registered nodes. -/
def static_order (g : Graph V) : Except (DagError V) (List V) :=
  kahnLoop g (nodes g).length (nodes g) []

/-- `__str__`: accumulate one rendered line per vertex.  The successor
order used here is the model's insertion order; the CPython runtime
iterates the successor `set` in hash-table order, which can differ from
insertion order (see `pySmallIntSetOrder` and `strDAGSmallInt` for the
runtime behavior on small-int graphs). -/
def strDAG (reprV : V → String) (g : Graph V) : String :=
  g.foldl (fun description p =>
    description ++ reprV p.1 ++ " -> [" ++
      String.intercalate ", " (p.2.map reprV) ++ "]" ++ "\n") ""

/-- Iteration order of a CPython `set` of small non-negative ints, in
the regime where it is exactly determined: `hash(x) = x` for
`x < 2^61 - 1`, at most 4 elements (so the table keeps its initial 8
slots) and no two elements in the same slot (`x % 8`); iteration walks
the slots in ascending index order, so it follows hash-table position,
not insertion order, and is independent of the order elements were
added.  Modelled from the CPython runtime that `__str__` iterates over;
`none` outside this regime, where the probe sequence and resize policy
would matter. -/
def pySmallIntSetOrder (s : List Nat) : Option (List Nat) :=
  if s.length ≤ 4 ∧ (s.map (· % 8)).Nodup ∧ ∀ x ∈ s, x < 2305843009213693951 then
    some ((List.range 8).filterMap fun slot => s.find? fun x => x % 8 == slot)
  else none

/-- `__str__` as the CPython runtime executes it on a small-int graph:
one line per vertex in dict insertion order, but each successor set
listed in hash-table order.  `none` when some successor set falls
outside the regime `pySmallIntSetOrder` captures. -/
def strDAGSmallInt (g : Graph Nat) : Option String :=
  g.foldl (fun acc p =>
    acc.bind fun description =>
      (pySmallIntSetOrder p.2).map fun ordered =>
        description ++ toString p.1 ++ " -> [" ++
          String.intercalate ", " (ordered.map toString) ++ "]" ++ "\n")
    (some "")

/-- Every vertex referenced in a successor set is itself a key. -/
def succClosed (g : Graph V) : Prop :=
  ∀ u v, v ∈ succList g u → contains g v = true

/-- The graphs reachable from the empty graph by normally-completing API
operations: construction, `add_vertex`, `add_edge`, `del g[x]`,
`subgraph`. -/
inductive Built : Graph V → Prop where
  | empty : Built []
  | build (l : List (EdgeSpec V)) : Built (buildDAG l)
  | vertex {g : Graph V} (v : V) : Built g → Built (add_vertex g v)
  | addedge {g : Graph V} (u v : V) : Built g → Built (add_edge g u v)
  | remove {g g' : Graph V} (fuel : Nat) (x : V) :
      Built g → delItem fuel g x = DelRes.ok g' → Built g'
  | sub {g g' : Graph V} (fuel : Nat) (root : V) :
      Built g → subgraph fuel g root = some (Except.ok g') → Built g'

/-! ### Basic lemmas about lookup, insertion and the successor lists -/

theorem contains_iff {g : Graph V} {v : V} :
    contains g v = true ↔ ∃ s, findEntry g v = some s := by
  simp [contains, Option.isSome_iff_exists]

theorem contains_false_iff {g : Graph V} {v : V} :
    contains g v = false ↔ findEntry g v = none := by
  cases h : findEntry g v <;> simp [contains, h]

theorem succList_of_findEntry {g : Graph V} {v : V} {s : List V}
    (h : findEntry g v = some s) : succList g v = s := by
  simp [succList, h]

theorem succList_of_absent {g : Graph V} {v : V}
    (h : findEntry g v = none) : succList g v = [] := by
  simp [succList, h]

theorem contains_of_succList_ne {g : Graph V} {u : V}
    (h : succList g u ≠ []) : contains g u = true := by
  cases hf : findEntry g u with
  | none => exact absurd (succList_of_absent hf) h
  | some s => exact contains_iff.mpr ⟨s, hf⟩

theorem findEntry_cons (p : V × List V) (rest : Graph V) (v : V) :
    findEntry (p :: rest) v = if p.1 = v then some p.2 else findEntry rest v := rfl

theorem mem_keys {g : Graph V} {v : V} : v ∈ keys g ↔ contains g v = true := by
  induction g with
  | nil => simp [keys, contains, findEntry]
  | cons p rest ih =>
    by_cases h : p.1 = v
    · simp [keys, contains, findEntry_cons, h]
    · simp only [keys, List.map_cons, List.mem_cons, contains, findEntry_cons, if_neg h]
      constructor
      · rintro (h1 | h2)
        · exact absurd h1.symm h
        · exact ih.mp h2
      · intro hc
        exact Or.inr (ih.mpr hc)

theorem findEntry_append_left {g h' : Graph V} {v : V} {s : List V}
    (hf : findEntry g v = some s) : findEntry (g ++ h') v = some s := by
  induction g with
  | nil => simp [findEntry] at hf
  | cons p rest ih =>
    rw [List.cons_append, findEntry_cons]
    rw [findEntry_cons] at hf
    by_cases h : p.1 = v
    · rw [if_pos h] at hf
      rw [if_pos h]
      exact hf
    · rw [if_neg h] at hf
      rw [if_neg h]
      exact ih hf

theorem findEntry_append_right {g h' : Graph V} {v : V}
    (hf : findEntry g v = none) : findEntry (g ++ h') v = findEntry h' v := by
  induction g with
  | nil => simp
  | cons p rest ih =>
    rw [List.cons_append, findEntry_cons]
    rw [findEntry_cons] at hf
    by_cases h : p.1 = v
    · rw [if_pos h] at hf
      cases hf
    · rw [if_neg h] at hf
      rw [if_neg h]
      exact ih hf

theorem findEntry_mem {g : Graph V} {v : V} {s : List V}
    (h : findEntry g v = some s) : (v, s) ∈ g := by
  induction g with
  | nil => simp [findEntry] at h
  | cons p rest ih =>
    rw [findEntry_cons] at h
    by_cases hp : p.1 = v
    · rw [if_pos hp] at h
      injection h with h2
      have hp2 : p = (v, s) := by
        cases p
        simp only at hp h2
        rw [hp, h2]
      rw [← hp2]
      exact List.mem_cons_self _ _
    · rw [if_neg hp] at h
      exact List.mem_cons_of_mem _ (ih h)

theorem mem_setAdd {s : List V} {v w : V} : w ∈ setAdd s v ↔ w ∈ s ∨ w = v := by
  by_cases h : v ∈ s
  · rw [setAdd, if_pos h]
    constructor
    · exact fun hw => Or.inl hw
    · rintro (hw | rfl)
      · exact hw
      · exact h
  · simp [setAdd, if_neg h]

theorem mem_setAdd_self (s : List V) (v : V) : v ∈ setAdd s v :=
  mem_setAdd.mpr (Or.inr rfl)

theorem setAdd_of_mem {s : List V} {v : V} (h : v ∈ s) : setAdd s v = s := by
  rw [setAdd, if_pos h]

theorem subset_setAdd (s : List V) (v : V) : s ⊆ setAdd s v :=
  fun _ hw => mem_setAdd.mpr (Or.inl hw)

theorem nodup_setAdd {s : List V} (v : V) (h : s.Nodup) : (setAdd s v).Nodup := by
  by_cases hv : v ∈ s
  · rwa [setAdd, if_pos hv]
  · rw [setAdd, if_neg hv]
    simp [List.nodup_append, h, hv]

/-! ### `add_vertex` -/

theorem add_vertex_of_contains {g : Graph V} {v : V}
    (h : contains g v = true) : add_vertex g v = g := by
  rw [add_vertex, if_pos h]

theorem contains_add_vertex {g : Graph V} {x v : V} :
    contains (add_vertex g x) v = true ↔ contains g v = true ∨ v = x := by
  by_cases h : contains g x = true
  · rw [add_vertex_of_contains h]
    constructor
    · exact fun hv => Or.inl hv
    · rintro (hv | rfl)
      · exact hv
      · exact h
  · rw [add_vertex, if_neg h]
    cases hv : findEntry g v with
    | some s =>
      have h1 : findEntry (g ++ [(x, [])]) v = some s := findEntry_append_left hv
      rw [contains, h1]
      simp only [Option.isSome_some]
      constructor
      · intro _
        exact Or.inl (contains_iff.mpr ⟨s, hv⟩)
      · intro _
        trivial
    | none =>
      have h2 : contains g v = false := contains_false_iff.mpr hv
      rw [contains, findEntry_append_right hv]
      by_cases hx : x = v
      · subst hx
        simp [findEntry_cons, findEntry, h2]
      · constructor
        · intro hc
          simp [findEntry_cons, findEntry, hx] at hc
        · rintro (hc | rfl)
          · rw [h2] at hc
            cases hc
          · simp [findEntry_cons, findEntry]

theorem contains_add_vertex_self (g : Graph V) (x : V) :
    contains (add_vertex g x) x = true :=
  contains_add_vertex.mpr (Or.inr rfl)

theorem findEntry_add_vertex_of_contains {g : Graph V} {w : V} (x : V)
    (h : contains g w = true) : findEntry (add_vertex g x) w = findEntry g w := by
  by_cases hx : contains g x = true
  · rw [add_vertex_of_contains hx]
  · obtain ⟨s, hs⟩ := contains_iff.mp h
    rw [add_vertex, if_neg hx, findEntry_append_left hs, hs]

theorem succList_add_vertex_of_contains {g : Graph V} {w : V} (x : V)
    (h : contains g w = true) : succList (add_vertex g x) w = succList g w := by
  rw [succList, succList, findEntry_add_vertex_of_contains x h]

theorem succList_add_vertex_sub (g : Graph V) (x w : V) :
    succList g w ⊆ succList (add_vertex g x) w := by
  cases hw : findEntry g w with
  | none => rw [succList_of_absent hw]; exact List.nil_subset _
  | some s =>
    rw [succList_add_vertex_of_contains x (contains_iff.mpr ⟨s, hw⟩)]
    exact fun _ hx => hx

theorem succList_add_vertex_cases (g : Graph V) (x w : V) :
    succList (add_vertex g x) w = succList g w ∨ succList (add_vertex g x) w = [] := by
  by_cases h : contains g x = true
  · rw [add_vertex_of_contains h]
    exact Or.inl rfl
  · rw [add_vertex, if_neg h]
    cases hw : findEntry g w with
    | some s =>
      rw [succList, findEntry_append_left hw, ← succList_of_findEntry hw]
      exact Or.inl rfl
    | none =>
      rw [succList, findEntry_append_right hw]
      by_cases hx : x = w
      · simp [findEntry_cons, findEntry, hx]
      · simp [findEntry_cons, findEntry, hx]

/-! ### `addSucc` (the final statement of `add_edge`) -/

theorem addSucc_cons (p : V × List V) (rest : Graph V) (u v : V) :
    addSucc (p :: rest) u v =
      (if p.1 = u then (p.1, setAdd p.2 v) else p) :: addSucc rest u v := rfl

theorem findEntry_addSucc_self {g : Graph V} {u v : V} :
    findEntry (addSucc g u v) u = (findEntry g u).map (fun s => setAdd s v) := by
  induction g with
  | nil => rfl
  | cons p rest ih =>
    rw [addSucc_cons]
    by_cases hp : p.1 = u
    · rw [if_pos hp, findEntry_cons, findEntry_cons]
      simp only [if_pos hp]
      rfl
    · rw [if_neg hp, findEntry_cons, findEntry_cons, if_neg hp, if_neg hp]
      exact ih

theorem findEntry_addSucc_ne {g : Graph V} {u v w : V} (h : w ≠ u) :
    findEntry (addSucc g u v) w = findEntry g w := by
  induction g with
  | nil => rfl
  | cons p rest ih =>
    rw [addSucc_cons]
    by_cases hp : p.1 = u
    · have hpw : ¬ p.1 = w := fun hc => h (hc ▸ hp ▸ rfl)
      rw [if_pos hp, findEntry_cons, findEntry_cons]
      simp only [if_neg hpw]
      exact ih
    · rw [if_neg hp, findEntry_cons, findEntry_cons]
      by_cases hpw : p.1 = w
      · rw [if_pos hpw, if_pos hpw]
      · rw [if_neg hpw, if_neg hpw]
        exact ih

theorem contains_addSucc {g : Graph V} {u v w : V} :
    contains (addSucc g u v) w = contains g w := by
  by_cases h : w = u
  · subst h
    rw [contains, contains, findEntry_addSucc_self]
    cases findEntry g w <;> rfl
  · rw [contains, contains, findEntry_addSucc_ne h]

theorem succList_addSucc_ne {g : Graph V} {u v w : V} (h : w ≠ u) :
    succList (addSucc g u v) w = succList g w := by
  rw [succList, succList, findEntry_addSucc_ne h]

theorem succList_addSucc_self {g : Graph V} {u v : V}
    (h : contains g u = true) :
    succList (addSucc g u v) u = setAdd (succList g u) v := by
  obtain ⟨s, hs⟩ := contains_iff.mp h
  rw [succList, succList, findEntry_addSucc_self, hs]
  rfl

/-! ### `add_edge` -/

theorem add_edge_eq (g : Graph V) (u v : V) :
    add_edge g u v = addSucc (add_vertex (add_vertex g u) v) u v := by
  have e1 : (if contains g u then g else add_vertex g u) = add_vertex g u := by
    by_cases h : contains g u = true
    · rw [if_pos h, add_vertex_of_contains h]
    · rw [if_neg h]
  rw [add_edge]
  rw [e1]
  have e2 : (if contains (add_vertex g u) v then add_vertex g u
      else add_vertex (add_vertex g u) v) = add_vertex (add_vertex g u) v := by
    by_cases h : contains (add_vertex g u) v = true
    · rw [if_pos h, add_vertex_of_contains h]
    · rw [if_neg h]
  rw [e2]

theorem contains_add_edge {g : Graph V} {u v w : V} :
    contains (add_edge g u v) w = true ↔
      contains g w = true ∨ w = u ∨ w = v := by
  rw [add_edge_eq, contains_addSucc, contains_add_vertex, contains_add_vertex, or_assoc]

theorem contains_add_edge_left (g : Graph V) (u v : V) :
    contains (add_edge g u v) u = true :=
  contains_add_edge.mpr (Or.inr (Or.inl rfl))

theorem contains_add_edge_right (g : Graph V) (u v : V) :
    contains (add_edge g u v) v = true :=
  contains_add_edge.mpr (Or.inr (Or.inr rfl))

theorem succList_add_edge_self (g : Graph V) (u v : V) :
    succList (add_edge g u v) u =
      setAdd (succList (add_vertex (add_vertex g u) v) u) v := by
  rw [add_edge_eq]
  exact succList_addSucc_self
    (contains_add_vertex.mpr (Or.inl (contains_add_vertex_self g u)))

theorem mem_succList_add_edge (g : Graph V) (u v : V) :
    v ∈ succList (add_edge g u v) u := by
  rw [succList_add_edge_self]
  exact mem_setAdd_self _ v

theorem succList_add_edge_ne {g : Graph V} {u w : V} (v : V) (hne : w ≠ u)
    (hc : contains g w = true) :
    succList (add_edge g u v) w = succList g w := by
  rw [add_edge_eq, succList_addSucc_ne hne,
    succList_add_vertex_of_contains v (contains_add_vertex.mpr (Or.inl hc)),
    succList_add_vertex_of_contains u hc]

theorem succList_add_edge_sub (g : Graph V) (u v w : V) :
    succList g w ⊆ succList (add_edge g u v) w := by
  rw [add_edge_eq]
  intro x hx
  have h1 : x ∈ succList (add_vertex (add_vertex g u) v) w :=
    succList_add_vertex_sub _ v w (succList_add_vertex_sub g u w hx)
  by_cases hw : w = u
  · subst hw
    rw [succList_addSucc_self (contains_add_vertex.mpr (Or.inl (contains_add_vertex_self g w)))]
    exact subset_setAdd _ _ h1
  · rwa [succList_addSucc_ne hw]

theorem succList_addSucc_cases (g : Graph V) (u v w : V) :
    succList (addSucc g u v) w = succList g w ∨
      (w = u ∧ succList (addSucc g u v) w = setAdd (succList g u) v) := by
  by_cases hw : w = u
  · subst hw
    by_cases h : contains g w = true
    · exact Or.inr ⟨rfl, succList_addSucc_self h⟩
    · have hn : findEntry g w = none := contains_false_iff.mp (by
        cases hc : contains g w with
        | true => exact absurd hc h
        | false => rfl)
      rw [succList, findEntry_addSucc_self, hn, succList, hn]
      exact Or.inl rfl
  · rw [succList_addSucc_ne hw]
    exact Or.inl rfl

theorem mem_succList_add_edge_cases {g : Graph V} {u v w x : V}
    (hx : x ∈ succList (add_edge g u v) w) : x ∈ succList g w ∨ x = v := by
  rw [add_edge_eq] at hx
  have hsub : ∀ y z, z ∈ succList (add_vertex (add_vertex g u) v) y → z ∈ succList g y := by
    intro y z hz
    rcases succList_add_vertex_cases (add_vertex g u) v y with h1 | h1
    · rw [h1] at hz
      rcases succList_add_vertex_cases g u y with h2 | h2
      · rwa [h2] at hz
      · rw [h2] at hz
        cases hz
    · rw [h1] at hz
      cases hz
  rcases succList_addSucc_cases (add_vertex (add_vertex g u) v) u v w with h1 | ⟨rfl, h1⟩
  · rw [h1] at hx
    exact Or.inl (hsub w x hx)
  · rw [h1] at hx
    rcases mem_setAdd.mp hx with h2 | rfl
    · exact Or.inl (hsub w x h2)
    · exact Or.inr rfl

/-! ### Claim C7: text rendering -/

theorem string_foldl_append (l : List String) (s : String) :
    l.foldl (· ++ ·) s = s ++ String.join l := by
  induction l generalizing s with
  | nil =>
    rw [List.foldl_nil]
    exact (String.append_empty s).symm
  | cons a xs ih =>
    rw [List.foldl_cons, ih (s ++ a)]
    have h2 : String.join (a :: xs) = a ++ String.join xs := by
      have h0 : ("" : String) ++ a = a := rfl
      calc String.join (a :: xs) = xs.foldl (· ++ ·) ("" ++ a) := rfl
        _ = xs.foldl (· ++ ·) a := by rw [h0]
        _ = a ++ String.join xs := ih a
    rw [h2, String.append_assoc]

theorem foldl_append_string {α : Type} (f : α → String) (l : List α) (s : String) :
    l.foldl (fun acc x => acc ++ f x) s = s ++ String.join (l.map f) := by
  rw [← List.foldl_map (f := f) (g := fun acc x => acc ++ x), string_foldl_append]

/-- The determinized model of `__str__` equals the join, over the
vertices in first-insertion order, of one line per vertex of the shape
`repr(v) ++ " -> [" ++ sep ++ "]\n"`, and the empty graph renders as the
empty string.  This reflects the line structure and vertex order of the
rendering; the successor order inside each bracket is the model's
determinization, not a property of the program (see
`render_hash_order_div`). -/
theorem render_text_spec (reprV : V → String) (g : Graph V) :
    strDAG reprV g = String.join (g.map fun p =>
      reprV p.1 ++ " -> [" ++ String.intercalate ", " (p.2.map reprV) ++ "]" ++ "\n") ∧
    strDAG reprV ([] : Graph V) = "" := by
  constructor
  · rw [strDAG]
    have hstep : (fun (description : String) (p : V × List V) =>
        description ++ reprV p.1 ++ " -> [" ++
          String.intercalate ", " (p.2.map reprV) ++ "]" ++ "\n")
        = fun (description : String) (p : V × List V) =>
          description ++ (reprV p.1 ++ " -> [" ++
            String.intercalate ", " (p.2.map reprV) ++ "]" ++ "\n") := by
      funext d p
      simp only [String.append_assoc]
    rw [hstep, foldl_append_string]
    rfl
  · rfl

/-- C7: the code iterates each successor `set` in CPython hash-table
order, not insertion order, so the claimed insertion-order rendering
fails on the program: on the graph built by `add_edge(0, 1);
add_edge(0, 8)` the runtime prints the successors of 0 as `[8, 1]`
(8 sits in hash slot 0, 1 in slot 1), while the claim requires
`[1, 8]`.  The one-line-per-vertex structure, the line format, the
vertex insertion order and the empty-graph case are as claimed; only
the successor order diverges. -/
theorem render_hash_order_div :
    strDAGSmallInt (add_edge (add_edge ([] : Graph Nat) 0 1) 0 8)
      = some "0 -> [8, 1]\n1 -> []\n8 -> []\n" ∧
    strDAG toString (add_edge (add_edge ([] : Graph Nat) 0 1) 0 8)
      = "0 -> [1, 8]\n1 -> []\n8 -> []\n" ∧
    strDAGSmallInt (add_edge (add_edge ([] : Graph Nat) 0 1) 0 8)
      ≠ some (strDAG toString (add_edge (add_edge ([] : Graph Nat) 0 1) 0 8)) := by
  refine ⟨by decide, by decide, by decide⟩

/-! ### Claim C9: idempotent insertion -/

/-- C9: inserting a vertex twice yields the same vertex count as once,
and inserting an edge twice yields the same successor set for its source
as once. -/
theorem insertion_idempotent (g : Graph V) (v u w : V) :
    len (add_vertex (add_vertex g v) v) = len (add_vertex g v) ∧
    succList (add_edge (add_edge g u w) u w) u = succList (add_edge g u w) u := by
  constructor
  · rw [add_vertex_of_contains (contains_add_vertex_self g v)]
  · have h1 : contains (add_edge g u w) u = true := contains_add_edge_left g u w
    have h2 : contains (add_edge g u w) w = true := contains_add_edge_right g u w
    rw [add_edge_eq (add_edge g u w) u w, add_vertex_of_contains h1,
      add_vertex_of_contains h2, succList_addSucc_self h1,
      setAdd_of_mem (mem_succList_add_edge g u w)]

/-! ### Claim C10: frame property of `add_edge` -/

/-- C10: `add_edge u v` leaves the successor set of every previously
present vertex other than `u` unchanged. -/
theorem add_edge_frame (g : Graph V) (u v w : V) (hne : w ≠ u)
    (hc : contains g w = true) :
    succList (add_edge g u v) w = succList g w :=
  succList_add_edge_ne v hne hc

/-- Witness for C10 at a concrete input. -/
theorem add_edge_frame_witness :
    succList (add_edge ([(3, [])] : Graph Nat) 1 2) 3 = succList ([(3, [])] : Graph Nat) 3 :=
  add_edge_frame _ 1 2 3 (by decide) (by decide)

/-! ### `__delitem__`: unfolding equations and primitive lemmas -/

theorem DelRes.bind_ok (g : Graph V) (f : Graph V → DelRes V) :
    DelRes.bind (DelRes.ok g) f = f g := rfl

theorem DelRes.bind_notFound (k : V) (f : Graph V → DelRes V) :
    DelRes.bind (DelRes.notFound k) f = DelRes.notFound k := rfl

theorem DelRes.bind_fuel (f : Graph V → DelRes V) :
    DelRes.bind DelRes.outOfFuel f = DelRes.outOfFuel := rfl

theorem delItem_zero (g : Graph V) (key : V) : delItem 0 g key = DelRes.outOfFuel := rfl

theorem delItem_succ (fuel : Nat) (g : Graph V) (key : V) :
    delItem (fuel+1) g key =
      match findEntry g key with
      | none => DelRes.notFound key
      | some toDelete =>
        DelRes.bind (delList fuel (removeFromAll g key) toDelete)
          (fun g2 => if contains g2 key then DelRes.ok (eraseKey g2 key)
            else DelRes.notFound key) := rfl

theorem delList_nil (fuel : Nat) (g : Graph V) : delList fuel g [] = DelRes.ok g := rfl

theorem foldl_del_stuck (fuel : Nat) (ns : List V) (r : DelRes V)
    (h : ∀ g, r ≠ DelRes.ok g) :
    ns.foldl (fun r n => DelRes.bind r fun h => delItem fuel h n) r = r := by
  induction ns generalizing r with
  | nil => rfl
  | cons n ns ih =>
    rw [List.foldl_cons]
    cases r with
    | ok g => exact absurd rfl (h g)
    | notFound k => rw [DelRes.bind_notFound]; exact ih _ h
    | outOfFuel => rw [DelRes.bind_fuel]; exact ih _ h

theorem delList_cons (fuel : Nat) (g : Graph V) (n : V) (ns : List V) :
    delList fuel g (n :: ns) =
      DelRes.bind (delItem fuel g n) (fun h => delList fuel h ns) := by
  rw [delList, List.foldl_cons, DelRes.bind_ok]
  cases hr : delItem fuel g n with
  | ok h => rfl
  | notFound k =>
    rw [DelRes.bind_notFound]
    exact foldl_del_stuck fuel ns _ (fun g hc => DelRes.noConfusion hc)
  | outOfFuel =>
    rw [DelRes.bind_fuel]
    exact foldl_del_stuck fuel ns _ (fun g hc => DelRes.noConfusion hc)

theorem keys_removeFromAll (g : Graph V) (key : V) :
    keys (removeFromAll g key) = keys g := by
  induction g with
  | nil => rfl
  | cons p rest ih =>
    simp only [removeFromAll, List.map_cons, keys] at ih ⊢
    rw [ih]

theorem findEntry_removeFromAll (g : Graph V) (key v : V) :
    findEntry (removeFromAll g key) v =
      (findEntry g v).map (fun s => s.filter fun x => decide (x ≠ key)) := by
  induction g with
  | nil => rfl
  | cons p rest ih =>
    simp only [removeFromAll, List.map_cons] at ih ⊢
    rw [findEntry_cons, findEntry_cons]
    by_cases hp : p.1 = v
    · simp only [hp, if_pos rfl]
      rfl
    · rw [if_neg hp, if_neg hp]
      exact ih

theorem contains_removeFromAll (g : Graph V) (key v : V) :
    contains (removeFromAll g key) v = contains g v := by
  rw [contains, contains, findEntry_removeFromAll]
  cases findEntry g v <;> rfl

theorem succList_removeFromAll (g : Graph V) (key v : V) :
    succList (removeFromAll g key) v =
      (succList g v).filter fun x => decide (x ≠ key) := by
  rw [succList, succList, findEntry_removeFromAll]
  cases findEntry g v <;> rfl

theorem not_mem_succList_removeFromAll (g : Graph V) (key v : V) :
    key ∉ succList (removeFromAll g key) v := by
  rw [succList_removeFromAll]
  intro hc
  have := List.of_mem_filter hc
  simp at this

theorem succList_removeFromAll_sub (g : Graph V) (key v : V) :
    succList (removeFromAll g key) v ⊆ succList g v := by
  rw [succList_removeFromAll]
  exact (List.filter_sublist _).subset

theorem keys_eraseKey_sublist (g : Graph V) (key : V) :
    (keys (eraseKey g key)).Sublist (keys g) :=
  (List.filter_sublist g).map Prod.fst

theorem findEntry_eraseKey_self (g : Graph V) (key : V) :
    findEntry (eraseKey g key) key = none := by
  induction g with
  | nil => rfl
  | cons p rest ih =>
    by_cases hp : p.1 = key
    · simp only [eraseKey, List.filter_cons, hp]
      simpa [eraseKey] using ih
    · simp only [eraseKey, List.filter_cons, decide_eq_true_eq]
      rw [if_pos hp]
      rw [findEntry_cons, if_neg hp]
      simpa [eraseKey] using ih

theorem findEntry_eraseKey_ne (g : Graph V) {key w : V} (h : w ≠ key) :
    findEntry (eraseKey g key) w = findEntry g w := by
  induction g with
  | nil => rfl
  | cons p rest ih =>
    by_cases hp : p.1 = key
    · have hpw : ¬ p.1 = w := fun hc => h (hc ▸ hp ▸ rfl)
      simp only [eraseKey, List.filter_cons, hp]
      rw [findEntry_cons, if_neg hpw]
      simpa [eraseKey] using ih
    · simp only [eraseKey, List.filter_cons, decide_eq_true_eq]
      rw [if_pos hp]
      rw [findEntry_cons, findEntry_cons]
      by_cases hpw : p.1 = w
      · rw [if_pos hpw, if_pos hpw]
      · rw [if_neg hpw, if_neg hpw]
        simpa [eraseKey] using ih

theorem contains_eraseKey_self (g : Graph V) (key : V) :
    contains (eraseKey g key) key = false := by
  rw [contains, findEntry_eraseKey_self]
  rfl

theorem contains_eraseKey_ne (g : Graph V) {key w : V} (h : w ≠ key) :
    contains (eraseKey g key) w = contains g w := by
  rw [contains, contains, findEntry_eraseKey_ne g h]

theorem succList_eraseKey_sub (g : Graph V) (key v : V) :
    succList (eraseKey g key) v ⊆ succList g v := by
  by_cases h : v = key
  · subst h
    rw [succList, findEntry_eraseKey_self]
    exact List.nil_subset _
  · rw [succList, findEntry_eraseKey_ne g h, succList]
    exact fun _ hx => hx

theorem rtg_mono_of_sub {g h : Graph V} (hs : ∀ w, succList h w ⊆ succList g w)
    {a b : V} (hr : Relation.ReflTransGen (edge h) a b) :
    Relation.ReflTransGen (edge g) a b :=
  Relation.ReflTransGen.mono (fun x y hxy => hs x hxy) hr

/-- Master invariant of a successful `__delitem__` call: keys only
disappear, successor sets only shrink, the deleted key is gone and
unreferenced, every vertex the call removed is unreferenced afterwards,
and every vertex not reachable from the deleted key survives. -/
theorem delItem_master :
    ∀ fuel (g : Graph V) (k : V) (g' : Graph V), delItem fuel g k = DelRes.ok g' →
      (keys g').Sublist (keys g) ∧
      (∀ w, succList g' w ⊆ succList g w) ∧
      contains g' k = false ∧
      (∀ u, k ∉ succList g' u) ∧
      (∀ w, contains g w = true → contains g' w = false → ∀ u, w ∉ succList g' u) ∧
      (∀ w, contains g w = true → ¬ Relation.ReflTransGen (edge g) k w →
        contains g' w = true) := by
  intro fuel
  induction fuel with
  | zero =>
    intro g k g' h
    exact DelRes.noConfusion h
  | succ fuel ih =>
    have ihL : ∀ (ks : List V) (g g' : Graph V), delList fuel g ks = DelRes.ok g' →
        (keys g').Sublist (keys g) ∧
        (∀ w, succList g' w ⊆ succList g w) ∧
        (∀ w, contains g w = true → contains g' w = false → ∀ u, w ∉ succList g' u) ∧
        (∀ w, contains g w = true →
          (∀ k ∈ ks, ¬ Relation.ReflTransGen (edge g) k w) →
          contains g' w = true) := by
      intro ks
      induction ks with
      | nil =>
        intro g g' h
        rw [delList_nil] at h
        injection h with h2
        subst h2
        refine ⟨List.Sublist.refl _, fun w x hx => hx, ?_, ?_⟩
        · intro w hw hw' u hx
          rw [hw] at hw'
          exact Bool.noConfusion hw'
        · intro w hw _
          exact hw
      | cons n ns ihns =>
        intro g g' h
        rw [delList_cons] at h
        cases hr : delItem fuel g n with
        | ok hmid =>
          rw [hr, DelRes.bind_ok] at h
          obtain ⟨hk1, hs1, hc1, hp1, he1, hv1⟩ := ih g n hmid hr
          obtain ⟨hk2, hs2, he2, hv2⟩ := ihns hmid g' h
          refine ⟨hk2.trans hk1, fun w x hx => hs1 w (hs2 w hx), ?_, ?_⟩
          · intro w hw hw' u
            cases hcm : contains hmid w with
            | true => exact he2 w hcm hw' u
            | false =>
              intro hx
              exact he1 w hw hcm u (hs2 u hx)
          · intro w hw hks
            have h1 : contains hmid w = true :=
              hv1 w hw (hks n (List.mem_cons_self n ns))
            exact hv2 w h1 (fun k' hk' hrtg =>
              hks k' (List.mem_cons_of_mem n hk') (rtg_mono_of_sub hs1 hrtg))
        | notFound k2 =>
          rw [hr, DelRes.bind_notFound] at h
          exact DelRes.noConfusion h
        | outOfFuel =>
          rw [hr, DelRes.bind_fuel] at h
          exact DelRes.noConfusion h
    intro g k g' h
    rw [delItem_succ] at h
    cases hf : findEntry g k with
    | none =>
      simp only [hf] at h
      exact DelRes.noConfusion h
    | some td =>
      simp only [hf] at h
      cases hd : delList fuel (removeFromAll g k) td with
      | ok g2 =>
        rw [hd] at h
        simp only [DelRes.bind_ok] at h
        by_cases hc : contains g2 k = true
        · rw [if_pos hc] at h
          injection h with h2
          subst h2
          obtain ⟨hk1, hs1, he1, hv1⟩ := ihL td (removeFromAll g k) g2 hd
          have hkeq := keys_removeFromAll g k
          have hsub : ∀ w, succList (eraseKey g2 k) w ⊆ succList g w := by
            intro w x hx
            exact succList_removeFromAll_sub g k w (hs1 w (succList_eraseKey_sub g2 k w hx))
          refine ⟨?_, hsub, contains_eraseKey_self g2 k, ?_, ?_, ?_⟩
          · have h3 := (keys_eraseKey_sublist g2 k).trans hk1
            rwa [hkeq] at h3
          · intro u hx
            exact not_mem_succList_removeFromAll g k u
              (hs1 u (succList_eraseKey_sub g2 k u hx))
          · intro w hw hw' u hx
            by_cases hwk : w = k
            · subst hwk
              exact not_mem_succList_removeFromAll g w u
                (hs1 u (succList_eraseKey_sub g2 w u hx))
            · have hcw : contains g2 w = false := by
                rw [← contains_eraseKey_ne g2 hwk]
                exact hw'
              have hgw : contains (removeFromAll g k) w = true := by
                rw [contains_removeFromAll]
                exact hw
              exact he1 w hgw hcw u (succList_eraseKey_sub g2 k u hx)
          · intro w hw hnr
            have hwk : w ≠ k := by
              intro hc2
              subst hc2
              exact hnr Relation.ReflTransGen.refl
            have hgw : contains (removeFromAll g k) w = true := by
              rw [contains_removeFromAll]
              exact hw
            have h2 : contains g2 w = true := by
              apply hv1 w hgw
              intro k' hk' hrtg
              have hrtg2 : Relation.ReflTransGen (edge g) k' w :=
                rtg_mono_of_sub (succList_removeFromAll_sub g k) hrtg
              have hek : edge g k k' := by
                rw [edge, succList_of_findEntry hf]
                exact hk'
              exact hnr (Relation.ReflTransGen.head hek hrtg2)
            rw [contains_eraseKey_ne g2 hwk]
            exact h2
        · rw [if_neg hc] at h
          exact DelRes.noConfusion h
      | notFound k2 =>
        rw [hd] at h
        simp only [DelRes.bind_notFound] at h
        exact DelRes.noConfusion h
      | outOfFuel =>
        rw [hd] at h
        simp only [DelRes.bind_fuel] at h
        exact DelRes.noConfusion h

/-! ### Claims C2 and C3: vertex removal -/

/-- C2 (amended): when `del g[x]` completes normally, `x` is absent, `x`
is in no remaining vertex's successor set, and every previously present
vertex that is *not* reachable from `x` remains present (the removal is
cascading: descendants of `x` may be recursively removed). -/
theorem remove_vertex_spec (fuel : Nat) (g : Graph V) (x : V) (g' : Graph V)
    (h : delItem fuel g x = DelRes.ok g') :
    contains g' x = false ∧ (∀ u, x ∉ succList g' u) ∧
    (∀ w, contains g w = true → ¬ Relation.ReflTransGen (edge g) x w →
      contains g' w = true) := by
  obtain ⟨_, _, hc, hp, _, hv⟩ := delItem_master fuel g x g' h
  exact ⟨hc, hp, hv⟩

/-- Counterexample to C2 as stated: in the test graph 1→2, 1→3, 3→4, 3→5,
deleting 3 also removes the still-present vertex 4 (the delete cascades). -/
theorem remove_vertex_cascades :
    contains (add_edge (add_edge (add_edge (add_edge ([] : Graph Nat) 1 2) 1 3) 3 4) 3 5) 4
      = true ∧
    delItem 10 (add_edge (add_edge (add_edge (add_edge ([] : Graph Nat) 1 2) 1 3) 3 4) 3 5) 3
      = DelRes.ok [(1, [2]), (2, [])] ∧
    contains ([(1, [2]), (2, [])] : Graph Nat) 4 = false := by
  refine ⟨by decide, by decide, by decide⟩

/-- Witness for C2 (amended) at the test graph: deleting 3 succeeds, 3 is
gone, and the unreachable vertex 1 survives. -/
theorem remove_vertex_spec_witness :
    contains ([(1, [2]), (2, [])] : Graph Nat) 3 = false ∧
    contains ([(1, [2]), (2, [])] : Graph Nat) 1 = true := by
  have hdel : delItem 10
      (add_edge (add_edge (add_edge (add_edge ([] : Graph Nat) 1 2) 1 3) 3 4) 3 5) 3
      = DelRes.ok [(1, [2]), (2, [])] := by decide
  have hspec := remove_vertex_spec 10 _ 3 _ hdel
  refine ⟨hspec.1, ?_⟩
  apply hspec.2.2 1 (by decide)
  intro hr
  have hstep : ∀ u v', u = 3 ∨ u = 4 ∨ u = 5 →
      edge (add_edge (add_edge (add_edge (add_edge ([] : Graph Nat) 1 2) 1 3) 3 4) 3 5) u v' →
      v' = 3 ∨ v' = 4 ∨ v' = 5 := by
    intro u v' hu he
    simp only [edge] at he
    rcases hu with rfl | rfl | rfl
    · have hs : succList
          (add_edge (add_edge (add_edge (add_edge ([] : Graph Nat) 1 2) 1 3) 3 4) 3 5) 3
          = [4, 5] := by decide
      rw [hs] at he
      simp at he
      rcases he with rfl | rfl
      · exact Or.inr (Or.inl rfl)
      · exact Or.inr (Or.inr rfl)
    · have hs : succList
          (add_edge (add_edge (add_edge (add_edge ([] : Graph Nat) 1 2) 1 3) 3 4) 3 5) 4
          = [] := by decide
      rw [hs] at he
      exact absurd he (List.not_mem_nil _)
    · have hs : succList
          (add_edge (add_edge (add_edge (add_edge ([] : Graph Nat) 1 2) 1 3) 3 4) 3 5) 5
          = [] := by decide
      rw [hs] at he
      exact absurd he (List.not_mem_nil _)
  have hinv : ∀ w, Relation.ReflTransGen
      (edge (add_edge (add_edge (add_edge (add_edge ([] : Graph Nat) 1 2) 1 3) 3 4) 3 5)) 3 w →
      w = 3 ∨ w = 4 ∨ w = 5 := by
    intro w hw
    induction hw with
    | refl => exact Or.inl rfl
    | tail h1 h2 ih => exact hstep _ _ ih h2
  rcases hinv 1 hr with h1 | h1 | h1 <;> exact absurd h1 (by decide)

/-- C3 (amended): `del g[x]` raises `NotFound` whenever `x` is absent,
and a normally-completing call implies `x` was present; for a present
`x` the cascade may still raise (see the counterexample). -/
theorem remove_vertex_absent (g : Graph V) (x : V) (fuel : Nat) :
    (contains g x = false → delItem (fuel+1) g x = DelRes.notFound x) ∧
    (∀ g', delItem fuel g x = DelRes.ok g' → contains g x = true) := by
  constructor
  · intro h
    rw [delItem_succ]
    simp only [contains_false_iff.mp h]
  · intro g' h
    cases fuel with
    | zero => exact DelRes.noConfusion h
    | succ fuel =>
      rw [delItem_succ] at h
      cases hf : findEntry g x with
      | none =>
        simp only [hf] at h
        exact DelRes.noConfusion h
      | some td => exact contains_iff.mpr ⟨td, hf⟩

/-- Counterexample to C3 as stated: in the graph 1→2, 1→3, 2→3, vertex 1
is present, yet `del g[1]` raises `NotFound 3` (the cascade deletes 3
through 2 and then revisits it). -/
theorem remove_vertex_present_raises :
    contains (add_edge (add_edge (add_edge ([] : Graph Nat) 1 2) 1 3) 2 3) 1 = true ∧
    delItem 10 (add_edge (add_edge (add_edge ([] : Graph Nat) 1 2) 1 3) 2 3) 1
      = DelRes.notFound 3 := by
  refine ⟨by decide, by decide⟩

/-- Witness for C3 (amended): deleting an absent vertex reports it. -/
theorem remove_vertex_absent_witness :
    delItem 1 ([(1, [])] : Graph Nat) 2 = DelRes.notFound 2 :=
  (remove_vertex_absent ([(1, [])] : Graph Nat) 2 0).1 (by decide)

/-! ### `DAG.__init__` / `buildDAG` -/

theorem mentions_single {w v : V} : (EdgeSpec.single w).mentions v ↔ v = w := Iff.rfl

theorem mentions_pair {a b v : V} : (EdgeSpec.pair a b).mentions v ↔ v = a ∨ v = b := Iff.rfl

theorem mentionedIn_nil {v : V} : ¬ mentionedIn ([] : List (EdgeSpec V)) v := by
  rintro ⟨e, he, _⟩
  exact absurd he (List.not_mem_nil e)

theorem mentionedIn_cons {e : EdgeSpec V} {es : List (EdgeSpec V)} {v : V} :
    mentionedIn (e :: es) v ↔ e.mentions v ∨ mentionedIn es v := by
  simp [mentionedIn]

theorem contains_applySpec {g : Graph V} {e : EdgeSpec V} {v : V} :
    contains (applySpec g e) v = true ↔ contains g v = true ∨ e.mentions v := by
  cases e with
  | single w => exact contains_add_vertex
  | pair a b => exact contains_add_edge

theorem succList_applySpec_sub (g : Graph V) (e : EdgeSpec V) (w : V) :
    succList g w ⊆ succList (applySpec g e) w := by
  cases e with
  | single x => exact succList_add_vertex_sub g x w
  | pair a b => exact succList_add_edge_sub g a b w

theorem foldl_applySpec_contains (l : List (EdgeSpec V)) :
    ∀ (g : Graph V) (v : V),
      contains (l.foldl applySpec g) v = true ↔ contains g v = true ∨ mentionedIn l v := by
  induction l with
  | nil =>
    intro g v
    rw [List.foldl_nil]
    constructor
    · exact fun h => Or.inl h
    · rintro (h | h)
      · exact h
      · exact absurd h mentionedIn_nil
  | cons e es ih =>
    intro g v
    rw [List.foldl_cons, ih, contains_applySpec, mentionedIn_cons, or_assoc]

theorem buildDAG_contains {l : List (EdgeSpec V)} {v : V} :
    contains (buildDAG l) v = true ↔ mentionedIn l v := by
  rw [buildDAG, foldl_applySpec_contains]
  constructor
  · rintro (h | h)
    · rw [contains, findEntry] at h
      cases h
    · exact h
  · exact fun h => Or.inr h

theorem buildDAG_pair_mem_general :
    ∀ (l : List (EdgeSpec V)) (g : Graph V) (u v : V),
      (EdgeSpec.pair u v ∈ l ∨ v ∈ succList g u) → v ∈ succList (l.foldl applySpec g) u := by
  intro l
  induction l with
  | nil =>
    intro g u v h
    rcases h with h | h
    · exact absurd h (List.not_mem_nil _)
    · exact h
  | cons e es ih =>
    intro g u v h
    rw [List.foldl_cons]
    rcases h with h | h
    · rcases List.mem_cons.mp h with rfl | h2
      · exact ih _ u v (Or.inr (mem_succList_add_edge g u v))
      · exact ih _ u v (Or.inl h2)
    · exact ih _ u v (Or.inr (succList_applySpec_sub g e u h))

theorem buildDAG_pair_mem {l : List (EdgeSpec V)} {u v : V}
    (h : EdgeSpec.pair u v ∈ l) : v ∈ succList (buildDAG l) u :=
  buildDAG_pair_mem_general l [] u v (Or.inl h)

/-! ### Closedness: every referenced vertex is a key -/

theorem succClosed_empty : succClosed ([] : Graph V) := by
  intro u v hv
  exact absurd hv (List.not_mem_nil v)

theorem succClosed_applySpec {g : Graph V} (e : EdgeSpec V) (h : succClosed g) :
    succClosed (applySpec g e) := by
  cases e with
  | single x =>
    intro u v hv
    rcases succList_add_vertex_cases g x u with h1 | h1
    · rw [applySpec] at hv
      rw [h1] at hv
      exact contains_add_vertex.mpr (Or.inl (h u v hv))
    · rw [applySpec] at hv
      rw [h1] at hv
      exact absurd hv (List.not_mem_nil v)
  | pair a b =>
    intro u v hv
    rcases mem_succList_add_edge_cases hv with h1 | rfl
    · exact contains_add_edge.mpr (Or.inl (h u v h1))
    · exact contains_add_edge_right g a v

theorem succClosed_foldl (l : List (EdgeSpec V)) :
    ∀ g : Graph V, succClosed g → succClosed (l.foldl applySpec g) := by
  induction l with
  | nil => exact fun g h => h
  | cons e es ih =>
    intro g h
    rw [List.foldl_cons]
    exact ih _ (succClosed_applySpec e h)

theorem succClosed_buildDAG (l : List (EdgeSpec V)) : succClosed (buildDAG l) :=
  succClosed_foldl l [] succClosed_empty

theorem succClosed_delItem {fuel : Nat} {g : Graph V} {x : V} {g' : Graph V}
    (h : delItem fuel g x = DelRes.ok g') (hc : succClosed g) : succClosed g' := by
  obtain ⟨hk, hs, _, _, he, _⟩ := delItem_master fuel g x g' h
  intro u v hv
  cases hcv : contains g' v with
  | true => rfl
  | false => exact absurd hv (he v (hc u v (hs u hv)) hcv u)

theorem subgraph_ok_buildDAG {fuel : Nat} {g : Graph V} {root : V} {g' : Graph V}
    (h : subgraph fuel g root = some (Except.ok g')) : ∃ l, g' = buildDAG l := by
  rw [subgraph] at h
  by_cases hc : contains g root = true
  · rw [if_pos hc] at h
    cases hl : subgraphLoop g fuel [root] [EdgeSpec.single root] with
    | none =>
      rw [hl] at h
      exact Option.noConfusion h
    | some r =>
      rw [hl] at h
      injection h with h2
      cases r with
      | ok l =>
        injection h2 with h3
        exact ⟨l, h3.symm⟩
      | error e => exact Except.noConfusion h2
  · rw [if_neg hc] at h
    injection h with h2
    injection h2 with h3
    exact ⟨[EdgeSpec.single root], h3.symm⟩

/-! ### Key uniqueness -/

theorem keys_add_vertex_nodup {g : Graph V} (x : V) (h : (keys g).Nodup) :
    (keys (add_vertex g x)).Nodup := by
  by_cases hc : contains g x = true
  · rwa [add_vertex_of_contains hc]
  · rw [add_vertex, if_neg hc, keys, List.map_append]
    rw [List.nodup_append]
    refine ⟨h, by simp, ?_⟩
    intro a ha hb
    simp only [List.map_cons, List.map_nil, List.mem_cons] at hb
    rcases hb with rfl | hb
    · exact hc (mem_keys.mp ha)
    · exact absurd hb (List.not_mem_nil a)

theorem keys_addSucc (g : Graph V) (u v : V) : keys (addSucc g u v) = keys g := by
  induction g with
  | nil => rfl
  | cons p rest ih =>
    rw [addSucc_cons]
    by_cases hp : p.1 = u
    · rw [if_pos hp]
      simp only [keys, List.map_cons] at ih ⊢
      rw [ih]
    · rw [if_neg hp]
      simp only [keys, List.map_cons] at ih ⊢
      rw [ih]

theorem keys_add_edge_nodup {g : Graph V} (u v : V) (h : (keys g).Nodup) :
    (keys (add_edge g u v)).Nodup := by
  rw [add_edge_eq, keys_addSucc]
  exact keys_add_vertex_nodup v (keys_add_vertex_nodup u h)

theorem keys_applySpec_nodup {g : Graph V} (e : EdgeSpec V) (h : (keys g).Nodup) :
    (keys (applySpec g e)).Nodup := by
  cases e with
  | single x => exact keys_add_vertex_nodup x h
  | pair a b => exact keys_add_edge_nodup a b h

theorem keys_foldl_nodup (l : List (EdgeSpec V)) :
    ∀ g : Graph V, (keys g).Nodup → (keys (l.foldl applySpec g)).Nodup := by
  induction l with
  | nil => exact fun g h => h
  | cons e es ih =>
    intro g h
    rw [List.foldl_cons]
    exact ih _ (keys_applySpec_nodup e h)

theorem keys_buildDAG_nodup (l : List (EdgeSpec V)) : (keys (buildDAG l)).Nodup :=
  keys_foldl_nodup l [] (by simp [keys])

/-! ### Facts about all API-reachable graphs -/

theorem built_succClosed {g : Graph V} (hb : Built g) : succClosed g := by
  induction hb with
  | empty => exact succClosed_empty
  | build l => exact succClosed_buildDAG l
  | vertex v hb ih => exact succClosed_applySpec (EdgeSpec.single v) ih
  | addedge u v hb ih => exact succClosed_applySpec (EdgeSpec.pair u v) ih
  | remove fuel x hdel hb ih => exact succClosed_delItem hb ih
  | sub fuel root hsub hb ih =>
    obtain ⟨l, rfl⟩ := subgraph_ok_buildDAG hb
    exact succClosed_buildDAG l

theorem built_keys_nodup {g : Graph V} (hb : Built g) : (keys g).Nodup := by
  induction hb with
  | empty => simp [keys]
  | build l => exact keys_buildDAG_nodup l
  | vertex v hb ih => exact keys_applySpec_nodup (EdgeSpec.single v) ih
  | addedge u v hb ih => exact keys_applySpec_nodup (EdgeSpec.pair u v) ih
  | remove fuel x hdel hb ih =>
    exact List.Nodup.sublist (delItem_master _ _ _ _ hb).1 ih
  | sub fuel root hsub hb ih =>
    obtain ⟨l, rfl⟩ := subgraph_ok_buildDAG hb
    exact keys_buildDAG_nodup l

/-! ### Claim C8: edges never point to untracked vertices -/

/-- C8: in every graph reachable from the empty graph by
normally-completing API operations, every vertex appearing in some
successor set is itself a key of the graph. -/
theorem built_edges_tracked (g : Graph V) (hb : Built g) :
    ∀ u v, v ∈ succList g u → contains g v = true :=
  built_succClosed hb

/-- Witness for C8: after `add_edge 1 2` on the empty graph, the
referenced successor 2 is a key. -/
theorem built_edges_tracked_witness :
    contains (add_edge ([] : Graph Nat) 1 2) 2 = true :=
  built_edges_tracked _ (Built.addedge 1 2 Built.empty) 1 2 (by decide)

/-! ### The `subgraph` breadth-first loop -/

theorem subgraphLoop_zero (g : Graph V) (wl : List V) (acc : List (EdgeSpec V)) :
    subgraphLoop g 0 wl acc = none := rfl

theorem subgraphLoop_nil (g : Graph V) (fuel : Nat) (acc : List (EdgeSpec V)) :
    subgraphLoop g (fuel+1) [] acc = some (Except.ok acc) := rfl

theorem subgraphLoop_cons (g : Graph V) (fuel : Nat) (next : V) (rest : List V)
    (acc : List (EdgeSpec V)) :
    subgraphLoop g (fuel+1) (next :: rest) acc =
      match findEntry g next with
      | none => some (Except.error next)
      | some children =>
        subgraphLoop g fuel (rest ++ children)
          (acc ++ children.map (EdgeSpec.pair next)) := rfl

theorem subgraphLoop_acc_mem (g : Graph V) :
    ∀ (fuel : Nat) (wl : List V) (acc final : List (EdgeSpec V)),
      subgraphLoop g fuel wl acc = some (Except.ok final) → ∀ e ∈ acc, e ∈ final := by
  intro fuel
  induction fuel with
  | zero =>
    intro wl acc final h
    exact Option.noConfusion h
  | succ fuel ih =>
    intro wl acc final h
    cases wl with
    | nil =>
      rw [subgraphLoop_nil] at h
      injection h with h2
      injection h2 with h3
      subst h3
      exact fun e he => he
    | cons next rest =>
      cases hf : findEntry g next with
      | none =>
        simp only [subgraphLoop_cons, hf] at h
        injection h with h2
        exact Except.noConfusion h2
      | some children =>
        simp only [subgraphLoop_cons, hf] at h
        intro e he
        exact ih _ _ final h e (List.mem_append_left _ he)

theorem subgraphLoop_wl_expanded (g : Graph V) :
    ∀ (fuel : Nat) (wl : List V) (acc final : List (EdgeSpec V)),
      subgraphLoop g fuel wl acc = some (Except.ok final) →
      ∀ u ∈ wl, ∀ n ∈ succList g u, EdgeSpec.pair u n ∈ final := by
  intro fuel
  induction fuel with
  | zero =>
    intro wl acc final h
    exact Option.noConfusion h
  | succ fuel ih =>
    intro wl acc final h
    cases wl with
    | nil =>
      intro u hu
      exact absurd hu (List.not_mem_nil u)
    | cons next rest =>
      cases hf : findEntry g next with
      | none =>
        simp only [subgraphLoop_cons, hf] at h
        injection h with h2
        exact Except.noConfusion h2
      | some children =>
        simp only [subgraphLoop_cons, hf] at h
        intro u hu n hn
        rcases List.mem_cons.mp hu with rfl | hu2
        · rw [succList_of_findEntry hf] at hn
          exact subgraphLoop_acc_mem g fuel _ _ final h _
            (List.mem_append_right _ (List.mem_map_of_mem _ hn))
        · exact ih _ _ final h u (List.mem_append_left _ hu2) n hn

theorem subgraphLoop_closure (g : Graph V) :
    ∀ (fuel : Nat) (wl : List V) (acc final : List (EdgeSpec V)),
      subgraphLoop g fuel wl acc = some (Except.ok final) →
      (∀ u, mentionedIn acc u →
        u ∈ wl ∨ ∀ n ∈ succList g u, EdgeSpec.pair u n ∈ acc) →
      ∀ u, mentionedIn final u → ∀ n ∈ succList g u, EdgeSpec.pair u n ∈ final := by
  intro fuel
  induction fuel with
  | zero =>
    intro wl acc final h
    exact Option.noConfusion h
  | succ fuel ih =>
    intro wl acc final h hinv
    cases wl with
    | nil =>
      rw [subgraphLoop_nil] at h
      injection h with h2
      injection h2 with h3
      subst h3
      intro u hm
      rcases hinv u hm with hu | hexp
      · exact absurd hu (List.not_mem_nil u)
      · exact hexp
    | cons next rest =>
      cases hf : findEntry g next with
      | none =>
        simp only [subgraphLoop_cons, hf] at h
        injection h with h2
        exact Except.noConfusion h2
      | some children =>
        simp only [subgraphLoop_cons, hf] at h
        apply ih _ _ final h
        intro u hm
        rcases hm with ⟨e, he, hme⟩
        rcases List.mem_append.mp he with he1 | he2
        · rcases hinv u ⟨e, he1, hme⟩ with hu | hexp
          · rcases List.mem_cons.mp hu with rfl | hu2
            · right
              intro n hn
              rw [succList_of_findEntry hf] at hn
              exact List.mem_append_right _ (List.mem_map_of_mem _ hn)
            · left
              exact List.mem_append_left _ hu2
          · right
            intro n hn
            exact List.mem_append_left _ (hexp n hn)
        · rcases List.mem_map.mp he2 with ⟨c, hc, rfl⟩
          rcases mentions_pair.mp hme with rfl | rfl
          · right
            intro n hn
            rw [succList_of_findEntry hf] at hn
            exact List.mem_append_right _ (List.mem_map_of_mem _ hn)
          · left
            exact List.mem_append_right _ hc

theorem subgraphLoop_sound (g : Graph V) (root : V) :
    ∀ (fuel : Nat) (wl : List V) (acc final : List (EdgeSpec V)),
      subgraphLoop g fuel wl acc = some (Except.ok final) →
      (∀ v ∈ wl, Relation.ReflTransGen (edge g) root v) →
      (∀ v, mentionedIn acc v → Relation.ReflTransGen (edge g) root v) →
      ∀ v, mentionedIn final v → Relation.ReflTransGen (edge g) root v := by
  intro fuel
  induction fuel with
  | zero =>
    intro wl acc final h
    exact Option.noConfusion h
  | succ fuel ih =>
    intro wl acc final h hwl hacc
    cases wl with
    | nil =>
      rw [subgraphLoop_nil] at h
      injection h with h2
      injection h2 with h3
      subst h3
      exact hacc
    | cons next rest =>
      cases hf : findEntry g next with
      | none =>
        simp only [subgraphLoop_cons, hf] at h
        injection h with h2
        exact Except.noConfusion h2
      | some children =>
        simp only [subgraphLoop_cons, hf] at h
        have hnext := hwl next (List.mem_cons_self _ _)
        have hchild : ∀ c ∈ children, Relation.ReflTransGen (edge g) root c := by
          intro c hc
          refine Relation.ReflTransGen.tail hnext ?_
          rw [edge, succList_of_findEntry hf]
          exact hc
        apply ih _ _ final h
        · intro v hv
          rcases List.mem_append.mp hv with hv1 | hv2
          · exact hwl v (List.mem_cons_of_mem _ hv1)
          · exact hchild v hv2
        · intro v hm
          rcases hm with ⟨e, he, hme⟩
          rcases List.mem_append.mp he with he1 | he2
          · exact hacc v ⟨e, he1, hme⟩
          · rcases List.mem_map.mp he2 with ⟨c, hc, rfl⟩
            rcases mentions_pair.mp hme with rfl | rfl
            · exact hnext
            · exact hchild v hc

/-! ### Claims C4 and C5: `subgraph` -/

theorem subgraphLoop_cyc_none :
    ∀ (fuel : Nat) (wl : List Nat) (acc : List (EdgeSpec Nat)), wl ≠ [] →
      (∀ v ∈ wl, v = 1 ∨ v = 2) →
      subgraphLoop (add_edge (add_edge ([] : Graph Nat) 1 2) 2 1) fuel wl acc = none := by
  intro fuel
  induction fuel with
  | zero =>
    intro wl acc h1 h2
    rfl
  | succ fuel ih =>
    intro wl acc h1 h2
    cases wl with
    | nil => exact absurd rfl h1
    | cons next rest =>
      rcases h2 next (List.mem_cons_self _ _) with rfl | rfl
      · have hf : findEntry (add_edge (add_edge ([] : Graph Nat) 1 2) 2 1) 1 = some [2] := by
          decide
        simp only [subgraphLoop_cons, hf]
        apply ih
        · simp
        · intro v hv
          rcases List.mem_append.mp hv with hv1 | hv2
          · exact h2 v (List.mem_cons_of_mem _ hv1)
          · simp at hv2
            exact Or.inr hv2
      · have hf : findEntry (add_edge (add_edge ([] : Graph Nat) 1 2) 2 1) 2 = some [1] := by
          decide
        simp only [subgraphLoop_cons, hf]
        apply ih
        · simp
        · intro v hv
          rcases List.mem_append.mp hv with hv1 | hv2
          · exact h2 v (List.mem_cons_of_mem _ hv1)
          · simp at hv2
            exact Or.inl hv2

/-- C4: on the two-vertex cycle 1→2, 2→1 (both vertices present),
`subgraph(1)` does not finish within any amount of fuel — the unguarded
reachability collection loops forever, so the claimed termination fails.
This exhibits the defect at a concrete input. -/
theorem subgraph_cycle_diverges :
    ∀ fuel : Nat, subgraph fuel (add_edge (add_edge ([] : Graph Nat) 1 2) 2 1) 1 = none := by
  intro fuel
  rw [subgraph, if_pos (by decide)]
  rw [subgraphLoop_cyc_none fuel [1] _ (by simp) (by
    intro v hv
    simp at hv
    exact Or.inl hv)]
  rfl

theorem subgraphLoop_selfloop_none :
    ∀ (fuel : Nat) (wl : List Nat) (acc : List (EdgeSpec Nat)), wl ≠ [] →
      (∀ v ∈ wl, v = 1) →
      subgraphLoop (add_edge ([] : Graph Nat) 1 1) fuel wl acc = none := by
  intro fuel
  induction fuel with
  | zero =>
    intro wl acc h1 h2
    rfl
  | succ fuel ih =>
    intro wl acc h1 h2
    cases wl with
    | nil => exact absurd rfl h1
    | cons next rest =>
      have hn := h2 next (List.mem_cons_self _ _)
      subst hn
      have hf : findEntry (add_edge ([] : Graph Nat) 1 1) 1 = some [1] := by decide
      simp only [subgraphLoop_cons, hf]
      apply ih
      · simp
      · intro v hv
        rcases List.mem_append.mp hv with hv1 | hv2
        · exact h2 v (List.mem_cons_of_mem _ hv1)
        · simpa using hv2

/-- Counterexample to C5 as stated: on the graph with the single self-loop
1→1 the root 1 is present, yet `subgraph(1)` never returns a graph at all
(it diverges for every fuel bound). -/
theorem subgraph_c5_cex :
    contains (add_edge ([] : Graph Nat) 1 1) 1 = true ∧
    ∀ fuel : Nat, subgraph fuel (add_edge ([] : Graph Nat) 1 1) 1 = none := by
  refine ⟨by decide, ?_⟩
  intro fuel
  rw [subgraph, if_pos (by decide)]
  rw [subgraphLoop_selfloop_none fuel [1] _ (by simp) (by
    intro v hv
    simpa using hv)]
  rfl

/-- C5 (amended): whenever `subgraph(root)` finishes (which it need not do
when a cycle is reachable from `root`), the returned graph contains
exactly `root` and the vertices transitively reachable from it, with every
edge of the source between included vertices preserved; for an absent
`root` it always returns the one-vertex graph `{root: set()}`. -/
theorem subgraph_reachable (fuel : Nat) (g : Graph V) (root : V) :
    (∀ H, subgraph fuel g root = some (Except.ok H) →
      (∀ v, contains H v = true ↔ Relation.ReflTransGen (edge g) root v) ∧
      (∀ u v, Relation.ReflTransGen (edge g) root u → v ∈ succList g u →
        v ∈ succList H u)) ∧
    (contains g root = false → subgraph fuel g root = some (Except.ok [(root, [])])) := by
  have habsent : contains g root = false →
      ∀ w, Relation.ReflTransGen (edge g) root w → w = root := by
    intro hc w hw
    rcases Relation.ReflTransGen.cases_head hw with h1 | ⟨c, hc1, _⟩
    · exact h1.symm
    · rw [edge, succList_of_absent (contains_false_iff.mp hc)] at hc1
      exact absurd hc1 (List.not_mem_nil c)
  constructor
  · intro H h
    by_cases hc : contains g root = true
    · rw [subgraph, if_pos hc] at h
      cases hl : subgraphLoop g fuel [root] [EdgeSpec.single root] with
      | none =>
        rw [hl] at h
        exact Option.noConfusion h
      | some r =>
        rw [hl] at h
        injection h with h2
        cases r with
        | error e => exact Except.noConfusion h2
        | ok final =>
          injection h2 with h3
          subst h3
          have hclosure := subgraphLoop_closure g fuel [root] [EdgeSpec.single root] final hl
            (by
              intro u hm
              left
              rcases hm with ⟨e, he, hme⟩
              rcases List.mem_cons.mp he with rfl | he2
              · rw [mentions_single] at hme
                rw [hme]
                exact List.mem_cons_self root []
              · exact absurd he2 (List.not_mem_nil e))
          have hsound := subgraphLoop_sound g root fuel [root] [EdgeSpec.single root] final hl
            (by
              intro v hv
              rcases List.mem_cons.mp hv with rfl | hv2
              · exact Relation.ReflTransGen.refl
              · exact absurd hv2 (List.not_mem_nil v))
            (by
              intro v hm
              rcases hm with ⟨e, he, hme⟩
              rcases List.mem_cons.mp he with rfl | he2
              · rw [mentions_single] at hme
                rw [hme]
              · exact absurd he2 (List.not_mem_nil e))
          have hroot_mem : EdgeSpec.single root ∈ final :=
            subgraphLoop_acc_mem g fuel _ _ final hl _ (List.mem_cons_self _ _)
          have hcomplete : ∀ v, Relation.ReflTransGen (edge g) root v →
              mentionedIn final v := by
            intro v hv
            induction hv with
            | refl => exact ⟨_, hroot_mem, mentions_single.mpr rfl⟩
            | tail h1 h2 ihv =>
              have hp := hclosure _ ihv _ h2
              exact ⟨_, hp, mentions_pair.mpr (Or.inr rfl)⟩
          constructor
          · intro v
            rw [buildDAG_contains]
            exact ⟨hsound v, hcomplete v⟩
          · intro u v hu hv
            exact buildDAG_pair_mem (hclosure u (hcomplete u hu) v hv)
    · have hcf : contains g root = false := by
        cases h' : contains g root with
        | true => exact absurd h' hc
        | false => rfl
      rw [subgraph, if_neg hc] at h
      injection h with h2
      injection h2 with h3
      subst h3
      constructor
      · intro v
        rw [buildDAG_contains]
        constructor
        · rintro ⟨e, he, hme⟩
          rcases List.mem_cons.mp he with rfl | he2
          · rw [mentions_single] at hme
            rw [hme]
          · exact absurd he2 (List.not_mem_nil e)
        · intro hrtg
          have hv := habsent hcf v hrtg
          exact ⟨_, List.mem_cons_self _ _, mentions_single.mpr hv⟩
      · intro u v hu hv
        have hroot := habsent hcf u hu
        subst hroot
        rw [succList_of_absent (contains_false_iff.mp hcf)] at hv
        exact absurd hv (List.not_mem_nil v)
  · intro hcf
    rw [subgraph, if_neg (by rw [hcf]; exact Bool.false_ne_true)]
    rfl

/-- Witness for C5 (amended): on the graph 1→2, `subgraph(1)` succeeds and
the theorem certifies that 2 (a vertex of the result) is reachable from 1. -/
theorem subgraph_reachable_witness :
    Relation.ReflTransGen (edge ([(1, [2]), (2, [])] : Graph Nat)) 1 2 := by
  have h := (subgraph_reachable 10 ([(1, [2]), (2, [])] : Graph Nat) 1).1
    [(1, [2]), (2, [])] (by decide)
  exact (h.1 2).mp (by decide)

/-! ### The node universe graphlib registers -/

theorem mem_foldl_setAdd (l : List V) :
    ∀ (acc : List V) (x : V), x ∈ l.foldl setAdd acc ↔ x ∈ acc ∨ x ∈ l := by
  induction l with
  | nil =>
    intro acc x
    simp
  | cons a as ih =>
    intro acc x
    rw [List.foldl_cons, ih, mem_setAdd]
    simp [or_assoc]

theorem nodup_foldl_setAdd (l : List V) :
    ∀ acc : List V, acc.Nodup → (l.foldl setAdd acc).Nodup := by
  induction l with
  | nil => exact fun acc h => h
  | cons a as ih =>
    intro acc h
    rw [List.foldl_cons]
    exact ih _ (nodup_setAdd a h)

theorem mem_nodes_aux (g : Graph V) :
    ∀ (acc : List V) (x : V),
      x ∈ g.foldl (fun acc p => p.2.foldl setAdd (setAdd acc p.1)) acc ↔
        x ∈ acc ∨ ∃ p ∈ g, x = p.1 ∨ x ∈ p.2 := by
  induction g with
  | nil =>
    intro acc x
    simp
  | cons p rest ih =>
    intro acc x
    rw [List.foldl_cons, ih, mem_foldl_setAdd, mem_setAdd]
    simp only [List.mem_cons]
    constructor
    · rintro (((h | h) | h) | ⟨q, hq, hx⟩)
      · exact Or.inl h
      · exact Or.inr ⟨p, Or.inl rfl, Or.inl h⟩
      · exact Or.inr ⟨p, Or.inl rfl, Or.inr h⟩
      · exact Or.inr ⟨q, Or.inr hq, hx⟩
    · rintro (h | ⟨q, hq | hq, hx⟩)
      · exact Or.inl (Or.inl (Or.inl h))
      · subst hq
        rcases hx with h | h
        · exact Or.inl (Or.inl (Or.inr h))
        · exact Or.inl (Or.inr h)
      · exact Or.inr ⟨q, hq, hx⟩

theorem mem_nodes {g : Graph V} {x : V} :
    x ∈ nodes g ↔ ∃ p ∈ g, x = p.1 ∨ x ∈ p.2 := by
  rw [nodes, mem_nodes_aux]
  simp

theorem nodes_nodup (g : Graph V) : (nodes g).Nodup := by
  rw [nodes]
  have : ∀ (h : Graph V) (acc : List V), acc.Nodup →
      (h.foldl (fun acc p => p.2.foldl setAdd (setAdd acc p.1)) acc).Nodup := by
    intro h
    induction h with
    | nil => exact fun acc ha => ha
    | cons p rest ih =>
      intro acc ha
      rw [List.foldl_cons]
      exact ih _ (nodup_foldl_setAdd p.2 _ (nodup_setAdd p.1 ha))
  exact this g [] (by simp)

theorem keys_subset_nodes (g : Graph V) {v : V} (h : contains g v = true) :
    v ∈ nodes g := by
  obtain ⟨s, hs⟩ := contains_iff.mp h
  exact mem_nodes.mpr ⟨(v, s), findEntry_mem hs, Or.inl rfl⟩

theorem succList_subset_nodes {g : Graph V} {u w : V} (h : w ∈ succList g u) :
    w ∈ nodes g := by
  cases hf : findEntry g u with
  | none =>
    rw [succList_of_absent hf] at h
    exact absurd h (List.not_mem_nil w)
  | some s =>
    rw [succList_of_findEntry hf] at h
    exact mem_nodes.mpr ⟨(u, s), findEntry_mem hf, Or.inr h⟩

theorem findEntry_of_mem_nodup {g : Graph V} (hnd : (keys g).Nodup) :
    ∀ {p : V × List V}, p ∈ g → findEntry g p.1 = some p.2 := by
  induction g with
  | nil =>
    intro p hp
    exact absurd hp (List.not_mem_nil p)
  | cons q rest ih =>
    intro p hp
    rcases List.mem_cons.mp hp with rfl | hp2
    · rw [findEntry_cons, if_pos rfl]
    · rw [findEntry_cons]
      have hq : q.1 ≠ p.1 := by
        intro hc
        have h1 : p.1 ∈ keys rest := List.mem_map_of_mem Prod.fst hp2
        rw [keys, List.map_cons] at hnd
        exact (List.nodup_cons.mp hnd).1 (hc ▸ h1)
      rw [if_neg hq]
      exact ih (List.nodup_cons.mp (by rwa [keys, List.map_cons] at hnd)).2 hp2

/-! ### A stuck state of Kahn's algorithm contains a cycle -/

theorem transGen_head_edge {r : V → V → Prop} {a b : V}
    (h : Relation.TransGen r a b) : ∃ c, r a c := by
  induction h with
  | single h1 => exact ⟨_, h1⟩
  | tail h1 h2 ih => exact ih

theorem cycle_of_total_out {r : V → V → Prop} {S : List V} (hne : S ≠ [])
    (h : ∀ v ∈ S, ∃ w, w ∈ S ∧ r v w) : ∃ v, Relation.TransGen r v v := by
  by_contra hcon
  push_neg at hcon
  haveI : IsTrans {x // x ∈ S.toFinset}
      (fun a b => Relation.TransGen r b.val a.val) :=
    ⟨fun a b c hab hbc => Relation.TransGen.trans hbc hab⟩
  haveI : IsIrrefl {x // x ∈ S.toFinset}
      (fun a b => Relation.TransGen r b.val a.val) :=
    ⟨fun a ha => hcon a.val ha⟩
  have hwf := Finite.wellFounded_of_trans_of_irrefl
    (fun (a b : {x // x ∈ S.toFinset}) => Relation.TransGen r b.val a.val)
  have hnonempty : ∃ a : {x // x ∈ S.toFinset}, True := by
    cases S with
    | nil => exact absurd rfl hne
    | cons b bs => exact ⟨⟨b, by simp⟩, trivial⟩
  obtain ⟨a0, _⟩ := hnonempty
  obtain ⟨m, _, hm⟩ := hwf.has_min Set.univ ⟨a0, trivial⟩
  obtain ⟨w, hw1, hw2⟩ := h m.val (List.mem_toFinset.mp m.property)
  exact hm ⟨w, List.mem_toFinset.mpr hw1⟩ trivial (Relation.TransGen.single hw2)

/-! ### The Kahn loop of `static_order` -/

theorem kahnLoop_zero (g : Graph V) (rem em : List V) :
    kahnLoop g 0 rem em =
      if rem.isEmpty then Except.ok em else Except.error DagError.cycleDetected := rfl

theorem kahnLoop_succ (g : Graph V) (fuel : Nat) (rem em : List V) :
    kahnLoop g (fuel+1) rem em =
      if rem.isEmpty then Except.ok em
      else if (rem.filter (kahnReady g em)).isEmpty then
        Except.error DagError.cycleDetected
      else kahnLoop g fuel (rem.filter fun v => ! kahnReady g em v)
        (em ++ rem.filter (kahnReady g em)) := rfl

theorem static_order_eq (g : Graph V) :
    static_order g = kahnLoop g (nodes g).length (nodes g) [] := rfl

theorem filter_split_perm (p : V → Bool) (l : List V) :
    (l.filter p ++ l.filter fun x => ! p x).Perm l := by
  induction l with
  | nil => simp
  | cons a as ih =>
    by_cases h : p a = true
    · rw [List.filter_cons, List.filter_cons]
      rw [if_pos h, if_neg (by simp [h])]
      exact (List.Perm.cons a ih)
    · rw [List.filter_cons, List.filter_cons]
      rw [if_neg h, if_pos (by simp [Bool.eq_false_iff.mpr h])]
      exact List.perm_middle.trans (List.Perm.cons a ih)

theorem length_filter_not_lt {p : V → Bool} :
    ∀ (l : List V) (x : V), x ∈ l → p x = true →
      (l.filter fun a => ! p a).length < l.length := by
  intro l
  induction l with
  | nil =>
    intro x hx
    exact absurd hx (List.not_mem_nil x)
  | cons b bs ih =>
    intro x hx hpx
    rw [List.filter_cons]
    by_cases hb : p b = true
    · rw [if_neg (by simp [hb])]
      calc (bs.filter fun a => ! p a).length ≤ bs.length := List.length_filter_le _ _
        _ < (b :: bs).length := by simp [Nat.lt_succ_self]
    · rw [if_pos (by simp [Bool.eq_false_iff.mpr hb])]
      simp only [List.length_cons, Nat.succ_lt_succ_iff]
      rcases List.mem_cons.mp hx with rfl | hxbs
      · exact absurd hpx hb
      · exact ih x hxbs hpx

theorem kahnLoop_perm (g : Graph V) :
    ∀ (fuel : Nat) (rem em l : List V),
      kahnLoop g fuel rem em = Except.ok l → l.Perm (em ++ rem) := by
  intro fuel
  induction fuel with
  | zero =>
    intro rem em l h
    rw [kahnLoop_zero] at h
    cases hrem : rem.isEmpty with
    | true =>
      rw [if_pos hrem] at h
      injection h with h2
      subst h2
      rw [List.isEmpty_iff.mp hrem]
      simp
    | false =>
      rw [if_neg (by rw [hrem]; exact Bool.false_ne_true)] at h
      exact Except.noConfusion h
  | succ fuel ih =>
    intro rem em l h
    rw [kahnLoop_succ] at h
    cases hrem : rem.isEmpty with
    | true =>
      rw [if_pos hrem] at h
      injection h with h2
      subst h2
      rw [List.isEmpty_iff.mp hrem]
      simp
    | false =>
      rw [if_neg (by rw [hrem]; exact Bool.false_ne_true)] at h
      cases hrdy : (rem.filter (kahnReady g em)).isEmpty with
      | true =>
        rw [if_pos hrdy] at h
        exact Except.noConfusion h
      | false =>
        rw [if_neg (by rw [hrdy]; exact Bool.false_ne_true)] at h
        have h1 := ih _ _ l h
        refine h1.trans ?_
        rw [List.append_assoc]
        exact List.Perm.append_left em (filter_split_perm (kahnReady g em) rem)

theorem kahnLoop_order (g : Graph V) :
    ∀ (fuel : Nat) (rem em l : List V),
      kahnLoop g fuel rem em = Except.ok l →
      (em ++ rem).Nodup →
      (∀ u ∈ em, ∀ v ∈ succList g u, v ∈ em ∧ em.indexOf v < em.indexOf u) →
      ∀ u ∈ l, ∀ v ∈ succList g u, v ∈ l ∧ l.indexOf v < l.indexOf u := by
  intro fuel
  induction fuel with
  | zero =>
    intro rem em l h hnd hP
    rw [kahnLoop_zero] at h
    cases hrem : rem.isEmpty with
    | true =>
      rw [if_pos hrem] at h
      injection h with h2
      subst h2
      exact hP
    | false =>
      rw [if_neg (by rw [hrem]; exact Bool.false_ne_true)] at h
      exact Except.noConfusion h
  | succ fuel ih =>
    intro rem em l h hnd hP
    rw [kahnLoop_succ] at h
    cases hrem : rem.isEmpty with
    | true =>
      rw [if_pos hrem] at h
      injection h with h2
      subst h2
      exact hP
    | false =>
      rw [if_neg (by rw [hrem]; exact Bool.false_ne_true)] at h
      cases hrdy : (rem.filter (kahnReady g em)).isEmpty with
      | true =>
        rw [if_pos hrdy] at h
        exact Except.noConfusion h
      | false =>
        rw [if_neg (by rw [hrdy]; exact Bool.false_ne_true)] at h
        have hpermstate : ((em ++ rem.filter (kahnReady g em)) ++
            rem.filter fun v => ! kahnReady g em v).Perm (em ++ rem) := by
          rw [List.append_assoc]
          exact List.Perm.append_left em (filter_split_perm (kahnReady g em) rem)
        have hnd' := (hpermstate.symm.nodup hnd)
        have hdisj := List.disjoint_of_nodup_append hnd
        apply ih _ _ l h hnd'
        intro u hu v hv
        rcases List.mem_append.mp hu with hu1 | hu2
        · obtain ⟨hvem, hlt⟩ := hP u hu1 v hv
          refine ⟨List.mem_append_left _ hvem, ?_⟩
          rw [List.indexOf_append_of_mem hvem, List.indexOf_append_of_mem hu1]
          exact hlt
        · have hready : kahnReady g em u = true := (List.mem_filter.mp hu2).2
          have hvem : v ∈ em := by
            have := List.all_eq_true.mp hready v hv
            exact of_decide_eq_true this
          have hurem : u ∈ rem := (List.mem_filter.mp hu2).1
          have hunotem : u ∉ em := fun hem => hdisj hem hurem
          refine ⟨List.mem_append_left _ hvem, ?_⟩
          rw [List.indexOf_append_of_mem hvem, List.indexOf_append_of_not_mem hunotem]
          calc em.indexOf v < em.length := List.indexOf_lt_length.mpr hvem
            _ ≤ em.length + (rem.filter (kahnReady g em)).indexOf u := Nat.le_add_right _ _

theorem kahnLoop_error_shape (g : Graph V) :
    ∀ (fuel : Nat) (rem em : List V) (e : DagError V),
      kahnLoop g fuel rem em = Except.error e → e = DagError.cycleDetected := by
  intro fuel
  induction fuel with
  | zero =>
    intro rem em e h
    rw [kahnLoop_zero] at h
    cases hrem : rem.isEmpty with
    | true =>
      rw [if_pos hrem] at h
      exact Except.noConfusion h
    | false =>
      rw [if_neg (by rw [hrem]; exact Bool.false_ne_true)] at h
      injection h with h2
      exact h2.symm
  | succ fuel ih =>
    intro rem em e h
    rw [kahnLoop_succ] at h
    cases hrem : rem.isEmpty with
    | true =>
      rw [if_pos hrem] at h
      exact Except.noConfusion h
    | false =>
      rw [if_neg (by rw [hrem]; exact Bool.false_ne_true)] at h
      cases hrdy : (rem.filter (kahnReady g em)).isEmpty with
      | true =>
        rw [if_pos hrdy] at h
        injection h with h2
        exact h2.symm
      | false =>
        rw [if_neg (by rw [hrdy]; exact Bool.false_ne_true)] at h
        exact ih _ _ e h

theorem kahnLoop_success (g : Graph V)
    (hacyc : ∀ v, ¬ Relation.TransGen (edge g) v v) :
    ∀ (fuel : Nat) (rem em : List V), rem.length ≤ fuel →
      (em ++ rem).Nodup →
      (∀ x, x ∈ nodes g ↔ x ∈ em ++ rem) →
      ∃ l, kahnLoop g fuel rem em = Except.ok l := by
  intro fuel
  induction fuel with
  | zero =>
    intro rem em hlen hnd hmem
    have hrem : rem = [] := List.length_eq_zero.mp (Nat.le_zero.mp hlen)
    subst hrem
    exact ⟨em, by rw [kahnLoop_zero]; rfl⟩
  | succ fuel ih =>
    intro rem em hlen hnd hmem
    cases rem with
    | nil => exact ⟨em, by rw [kahnLoop_succ]; rfl⟩
    | cons a as =>
      by_cases hrdy : (a :: as).filter (kahnReady g em) = []
      · exfalso
        have hstuck : ∀ v ∈ a :: as, ∃ w, w ∈ a :: as ∧ edge g v w := by
          intro v hv
          have hnotready : ¬ kahnReady g em v = true := by
            have := List.filter_eq_nil_iff.mp hrdy v hv
            simpa using this
          rw [kahnReady] at hnotready
          have hex : ∃ w ∈ succList g v, ¬ w ∈ em := by
            by_contra hno
            push_neg at hno
            exact hnotready (List.all_eq_true.mpr
              (fun w hw => decide_eq_true (hno w hw)))
          obtain ⟨w, hw1, hw2⟩ := hex
          refine ⟨w, ?_, hw1⟩
          have hwn : w ∈ nodes g := succList_subset_nodes hw1
          rcases List.mem_append.mp ((hmem w).mp hwn) with h1 | h1
          · exact absurd h1 hw2
          · exact h1
        obtain ⟨v, hv⟩ := cycle_of_total_out (List.cons_ne_nil a as) hstuck
        exact hacyc v hv
      · have hrdyisempty : ((a :: as).filter (kahnReady g em)).isEmpty = false := by
          cases hc : (a :: as).filter (kahnReady g em) with
          | nil => exact absurd hc hrdy
          | cons b bs => rfl
        obtain ⟨r, hr1, hr2⟩ :
            ∃ r, r ∈ a :: as ∧ kahnReady g em r = true := by
          cases hc : (a :: as).filter (kahnReady g em) with
          | nil => exact absurd hc hrdy
          | cons b bs =>
            have hb : b ∈ (a :: as).filter (kahnReady g em) := by
              rw [hc]
              exact List.mem_cons_self _ _
            exact ⟨b, (List.mem_filter.mp hb).1, (List.mem_filter.mp hb).2⟩
        have hlen' : ((a :: as).filter fun v => ! kahnReady g em v).length ≤ fuel := by
          have := length_filter_not_lt (a :: as) r hr1 hr2
          omega
        have hpermstate : ((em ++ (a :: as).filter (kahnReady g em)) ++
            ((a :: as).filter fun v => ! kahnReady g em v)).Perm (em ++ (a :: as)) := by
          rw [List.append_assoc]
          exact List.Perm.append_left em (filter_split_perm (kahnReady g em) (a :: as))
        obtain ⟨l, hl⟩ := ih ((a :: as).filter fun v => ! kahnReady g em v)
          (em ++ (a :: as).filter (kahnReady g em)) hlen'
          (hpermstate.symm.nodup hnd)
          (by
            intro x
            rw [hmem x]
            exact ⟨fun hx => (hpermstate.mem_iff).mpr hx,
              fun hx => (hpermstate.mem_iff).mp hx⟩)
        refine ⟨l, ?_⟩
        rw [kahnLoop_succ]
        rw [if_neg (by rw [List.isEmpty_cons]; exact Bool.false_ne_true)]
        rw [if_neg (by rw [hrdyisempty]; exact Bool.false_ne_true)]
        exact hl

/-! ### Claim C6: cycle detection -/

/-- C6: for every graph containing at least one cycle, `static_order`
fails with `CycleDetected`; being an `Except`, the failing run yields no
partial ordering (graphlib's `prepare()` likewise raises before the
generator yields anything). -/
theorem static_order_cycle (g : Graph V)
    (h : ∃ v, Relation.TransGen (edge g) v v) :
    static_order g = Except.error DagError.cycleDetected := by
  obtain ⟨v, hv⟩ := h
  cases hres : static_order g with
  | error e =>
    rw [static_order_eq] at hres
    rw [kahnLoop_error_shape g _ _ _ e hres]
  | ok l =>
    exfalso
    rw [static_order_eq] at hres
    have hperm := kahnLoop_perm g _ _ _ _ hres
    have hord := kahnLoop_order g _ _ _ _ hres (by simpa using nodes_nodup g)
      (fun u hu => absurd hu (List.not_mem_nil u))
    have hdec : ∀ a b, Relation.TransGen (edge g) a b → a ∈ l →
        b ∈ l ∧ l.indexOf b < l.indexOf a := by
      intro a b htg
      induction htg with
      | single hab => exact fun ha => hord a ha _ hab
      | tail h1 h2 ihtg =>
        intro ha
        obtain ⟨hb, hlt⟩ := ihtg ha
        obtain ⟨hc, hlt2⟩ := hord _ hb _ h2
        exact ⟨hc, hlt2.trans hlt⟩
    have hvl : v ∈ l := by
      obtain ⟨w, hw⟩ := transGen_head_edge hv
      have hkey : contains g v = true := contains_of_succList_ne
        (fun hemp => absurd (hemp ▸ hw) (List.not_mem_nil w))
      exact hperm.mem_iff.mpr (by simpa using keys_subset_nodes g hkey)
    obtain ⟨_, hlt⟩ := hdec v v hv hvl
    exact absurd hlt (lt_irrefl _)

/-- Witness for C6: `add_edge 1 2; add_edge 2 1` has the cycle 1→2→1 and
`static_order` reports it. -/
theorem static_order_cycle_witness :
    static_order (add_edge (add_edge ([] : Graph Nat) 1 2) 2 1)
      = Except.error DagError.cycleDetected := by
  apply static_order_cycle
  have e12 : edge (add_edge (add_edge ([] : Graph Nat) 1 2) 2 1) 1 2 := by decide
  have e21 : edge (add_edge (add_edge ([] : Graph Nat) 1 2) 2 1) 2 1 := by decide
  exact ⟨1, Relation.TransGen.tail (Relation.TransGen.single e12) e21⟩

/-! ### Claim C1: topological validity -/

/-- C1 (amended): for every API-constructible acyclic graph,
`static_order` succeeds, its output is a permutation of exactly the
vertex set, and for every edge `(u, v)` the successor `v` appears
strictly *before* `u`: the implementation hands its successor map to
`graphlib.TopologicalSorter`, which reads the values as predecessors, so
the produced order is the reverse of the claimed one. -/
theorem static_order_acyclic (g : Graph V) (hb : Built g)
    (hacyc : ∀ v, ¬ Relation.TransGen (edge g) v v) :
    ∃ l, static_order g = Except.ok l ∧ l.Perm (keys g) ∧
      ∀ u v, v ∈ succList g u → l.indexOf v < l.indexOf u := by
  have hnd := built_keys_nodup hb
  have hclosed := built_succClosed hb
  have hnk : ∀ x, x ∈ nodes g ↔ x ∈ keys g := by
    intro x
    constructor
    · intro hx
      rcases mem_nodes.mp hx with ⟨p, hp, hx1 | hx2⟩
      · subst hx1
        exact List.mem_map_of_mem Prod.fst hp
      · have hf := findEntry_of_mem_nodup hnd hp
        have hs : x ∈ succList g p.1 := by
          rw [succList_of_findEntry hf]
          exact hx2
        exact mem_keys.mpr (hclosed _ _ hs)
    · intro hx
      exact keys_subset_nodes g (mem_keys.mp hx)
  have hperm_nk : (nodes g).Perm (keys g) :=
    (List.perm_ext_iff_of_nodup (nodes_nodup g) hnd).mpr hnk
  obtain ⟨l, hl⟩ := kahnLoop_success g hacyc (nodes g).length (nodes g) []
    (le_refl _) (by simpa using nodes_nodup g) (by intro x; simp)
  have hperm := kahnLoop_perm g _ _ _ _ hl
  have hord := kahnLoop_order g _ _ _ _ hl (by simpa using nodes_nodup g)
    (fun u hu => absurd hu (List.not_mem_nil u))
  refine ⟨l, by rw [static_order_eq]; exact hl, hperm.trans hperm_nk, ?_⟩
  intro u v hv
  have hkey : contains g u = true := contains_of_succList_ne
    (fun hemp => absurd (hemp ▸ hv) (List.not_mem_nil v))
  have hul : u ∈ l := hperm.mem_iff.mpr (by simpa using keys_subset_nodes g hkey)
  exact (hord u hul v hv).2

/-- Counterexample to C1 as stated: with the single edge (1, 2) the
output is `[2, 1]`, so the source 1 does not appear before its successor
2. -/
theorem static_order_c1_cex :
    (2 : Nat) ∈ succList (add_edge ([] : Graph Nat) 1 2) 1 ∧
    static_order (add_edge ([] : Graph Nat) 1 2) = Except.ok [2, 1] ∧
    ¬ (([2, 1] : List Nat).indexOf 1 < ([2, 1] : List Nat).indexOf 2) := by
  refine ⟨by decide, by decide, by decide⟩

/-- Witness for C1 (amended): the one-vertex graph is acyclic and built,
so `static_order` does not report a cycle. -/
theorem static_order_acyclic_witness :
    static_order (add_vertex ([] : Graph Nat) 1) ≠ Except.error DagError.cycleDetected := by
  have hb : Built (add_vertex ([] : Graph Nat) 1) := Built.vertex 1 Built.empty
  have hne : ∀ a b : Nat, ¬ edge (add_vertex ([] : Graph Nat) 1) a b := by
    intro a b hab
    have hab' : b ∈ succList (add_vertex ([] : Graph Nat) 1) a := hab
    have hs : succList (add_vertex ([] : Graph Nat) 1) a = [] := by
      have honly : ∀ s, findEntry (add_vertex ([] : Graph Nat) 1) a = some s → s = [] := by
        intro s hs2
        have hmem := findEntry_mem hs2
        have hmem2 : (a, s) ∈ [((1 : Nat), ([] : List Nat))] := hmem
        simp at hmem2
        exact hmem2.2
      cases hf : findEntry (add_vertex ([] : Graph Nat) 1) a with
      | none => exact succList_of_absent hf
      | some s =>
        rw [succList_of_findEntry hf]
        exact honly s hf
    rw [hs] at hab'
    exact absurd hab' (List.not_mem_nil b)
  have hacyc : ∀ v, ¬ Relation.TransGen (edge (add_vertex ([] : Graph Nat) 1)) v v := by
    intro v hv
    cases hv with
    | single h => exact hne _ _ h
    | tail h1 h2 => exact hne _ _ h2
  obtain ⟨l, hl, _, _⟩ := static_order_acyclic _ hb hacyc
  rw [hl]
  intro hc
  exact Except.noConfusion hc

end Naritai
